import Mathlib

/-!
Verification development for the cvetracker4rs repository.

The repository is a Rust program that explores the reverse-dependency graph
of a registry, looking for packages that reach a vulnerable function.  This
file gives a shallow embedding of the parts of the program that the
properties below are about:

* the SemVer version model used by the program (the `semver` crate is an
  external collaborator of the repository; its parsing, precedence order and
  requirement matching are modelled here following its documented semantics,
  which is what both `src/utils.rs` and `src/dependency_analyzer.rs` rely on);
* the two-endpoint version selector of `src/utils.rs`;
* the BFS orchestrator of `src/dependency_analyzer.rs`, with the external
  world (registry queries, downloads, the analyzer subprocess) abstracted
  into an environment of oracle functions;
* the call-graph runner of `src/callgraph.rs` together with the graceful
  process termination of `src/process.rs`, as a timing model;
* the symbol prefilter of `src/callgraph.rs`;
* the downloader and the manifest pinning of `src/model.rs`;
* the CSV batch driver of `src/bin/run_from_csv.rs`.

Effectful Rust code is embedded by passing the relevant state or oracle
explicitly; fallible code returns `Option` or `Except`.  A `unwrap()` panic
on a code path is embedded as `Option.none` propagating out of the
corresponding function.
-/

namespace Semver

/-- Split a list of characters at every occurrence of the separator `c`.
Mirrors `str::split` of Rust: the result always has one more element than
the number of separators, and may contain empty segments. -/
def splitOnChar (c : Char) : List Char → List (List Char)
  | [] => [[]]
  | x :: xs =>
    match splitOnChar c xs with
    | [] => [[x]]
    | y :: ys => if x = c then [] :: y :: ys else (x :: y) :: ys

/-- Split a list of characters at the first occurrence of `c`: returns the
part before it and, when `c` occurs, the part after it.  Mirrors how the
`semver` crate cuts a version string at the first `-` (pre-release) and the
first `+` (build metadata). -/
def breakAtFirst (c : Char) : List Char → (List Char × Option (List Char))
  | [] => ([], none)
  | x :: xs =>
    if x = c then ([], some xs)
    else
      let r := breakAtFirst c xs
      (x :: r.1, r.2)

/-- Decimal value of a digit string (assumes all characters are digits). -/
def digitsToNat (cs : List Char) : Nat :=
  cs.foldl (fun n c => n * 10 + (c.toNat - 48)) 0

/-- Numeric version component of SemVer: non-empty, all ASCII digits, no
leading zero (except the single digit `0`). -/
def parseNumericComponent (cs : List Char) : Option Nat :=
  if cs ≠ [] ∧ cs.all (·.isDigit) ∧ (cs.length = 1 ∨ cs.head? ≠ some '0')
  then some (digitsToNat cs) else none

/-- Characters allowed in SemVer pre-release and build identifiers. -/
def isIdentChar (c : Char) : Bool :=
  c.isDigit || c.isAlpha || c = '-'

/-- A valid pre-release identifier: non-empty, identifier characters only,
and purely numeric identifiers must not have leading zeros. -/
def validPreIdent (cs : List Char) : Bool :=
  cs ≠ [] && cs.all isIdentChar &&
    (if cs.all (·.isDigit) then decide (cs.length = 1 ∨ cs.head? ≠ some '0') else true)

/-- A valid build-metadata identifier: non-empty, identifier characters only
(leading zeros are permitted in build metadata). -/
def validBuildIdent (cs : List Char) : Bool :=
  cs ≠ [] && cs.all isIdentChar

/-- SemVer version as used throughout the program via `semver::Version`:
three numeric components plus optional pre-release and build identifier
lists. -/
structure Version where
  major : Nat
  minor : Nat
  patch : Nat
  pre : List String
  build : List String
deriving DecidableEq, Repr, Inhabited

/-- Display of a version (`Display for semver::Version`), used by the
orchestrator when turning a selected `semver::Version` back into the version
string of a seed node. -/
def Version.render (v : Version) : String :=
  toString v.major ++ "." ++ toString v.minor ++ "." ++ toString v.patch ++
    (if v.pre = [] then "" else "-" ++ String.intercalate "." v.pre) ++
    (if v.build = [] then "" else "+" ++ String.intercalate "." v.build)

/-- Parse of a full SemVer version string, modelling `semver::Version::parse`:
`major.minor.patch` with optional `-pre` and `+build`, where the pre-release
part is everything after the first `-` following the numeric triple and the
build part everything after the first `+`. -/
def Version.parse (s : String) : Option Version :=
  let cs := s.toList
  let bp := breakAtFirst '+' cs
  let cp := breakAtFirst '-' bp.1
  match splitOnChar '.' cp.1 with
  | [ma, mi, pa] => do
    let major ← parseNumericComponent ma
    let minor ← parseNumericComponent mi
    let patch ← parseNumericComponent pa
    let pre ← match cp.2 with
      | none => some ([] : List String)
      | some p =>
        let ids := splitOnChar '.' p
        if ids.all validPreIdent then some (ids.map fun l => String.mk l) else none
    let build ← match bp.2 with
      | none => some ([] : List String)
      | some b =>
        let ids := splitOnChar '.' b
        if ids.all validBuildIdent then some (ids.map fun l => String.mk l) else none
    some ⟨major, minor, patch, pre, build⟩
  | _ => none

/-- Key type for a single SemVer identifier.  Numeric identifiers sort
before alphanumeric ones; numeric identifiers compare by length and then
lexically (which is numeric order in the absence of leading zeros, exactly
the comparison the `semver` crate performs); alphanumeric identifiers
compare lexically in ASCII order. -/
abbrev IdKey := Lex ((Lex (Nat × String)) ⊕ String)

/-- Order key of one identifier. -/
def identKey (s : String) : IdKey :=
  toLex (if s.toList.all (·.isDigit) && !(s == "") then Sum.inl (toLex (s.length, s)) else Sum.inr s)

/-- Order key of a pre-release identifier list: the absence of a pre-release
(`[]`) has the highest precedence (`⊤`), and non-empty lists compare
lexicographically identifier by identifier, a strict prefix being smaller. -/
def preKey (pre : List String) : WithTop (List IdKey) :=
  if pre = [] then ⊤ else ((pre.map identKey : List IdKey) : WithTop (List IdKey))

/-- Full order key of a version, mirroring `Ord for semver::Version`:
major, then minor, then patch, then pre-release (absence greatest), then
build metadata (empty smallest) as a final tie-break. -/
abbrev VKey := Lex (Nat × Lex (Nat × Lex (Nat × Lex (WithTop (List IdKey) × List IdKey))))

/-- Order key of a version. -/
def Version.key (v : Version) : VKey :=
  toLex (v.major, toLex (v.minor, toLex (v.patch, toLex (preKey v.pre, v.build.map identKey))))

/-- Total order on versions by SemVer precedence with the build-metadata
tie-break of the `semver` crate, lifted along the injective key. -/
instance : LinearOrder Version :=
  LinearOrder.lift' Version.key (by
    have hid : Function.Injective identKey := by
      intro a b h
      simp only [identKey] at h
      split at h <;> split at h <;> simp_all [toLex]
    have hmap : Function.Injective (List.map identKey) := List.map_injective_iff.mpr hid
    have hpre : Function.Injective preKey := by
      intro a b h
      simp only [preKey] at h
      by_cases ha : a = [] <;> by_cases hb : b = []
      · rw [ha, hb]
      · rw [if_pos ha, if_neg hb] at h
        exact absurd h.symm (WithTop.coe_ne_top)
      · rw [if_neg ha, if_pos hb] at h
        exact absurd h (WithTop.coe_ne_top)
      · rw [if_neg ha, if_neg hb] at h
        exact hmap (WithTop.coe_injective h)
    intro a b h
    have h1 : a.major = b.major := congrArg (fun k => (ofLex k).1) h
    have h2 : a.minor = b.minor := congrArg (fun k => (ofLex (ofLex k).2).1) h
    have h3 : a.patch = b.patch := congrArg (fun k => (ofLex (ofLex (ofLex k).2).2).1) h
    have h4 : preKey a.pre = preKey b.pre :=
      congrArg (fun k => (ofLex (ofLex (ofLex (ofLex k).2).2).2).1) h
    have h5 : a.build.map identKey = b.build.map identKey :=
      congrArg (fun k => (ofLex (ofLex (ofLex (ofLex k).2).2).2).2) h
    cases a; cases b
    simp only [Version.mk.injEq]
    exact ⟨h1, h2, h3, hpre h4, hmap h5⟩)

/-- Pre-release comparison used inside requirement comparators
(`ver.pre >= cmp.pre` in the `semver` crate, where the empty pre-release is
greatest). -/
def preLe (a b : List String) : Bool := decide (preKey a ≤ preKey b)

/-- Strict pre-release comparison, see `preLe`. -/
def preLt (a b : List String) : Bool := decide (preKey a < preKey b)

/-- Comparator operator of a `semver::VersionReq`. -/
inductive Op
  | exact
  | greater
  | greaterEq
  | less
  | lessEq
  | tilde
  | caret
  | wildcard
deriving DecidableEq, Repr

/-- One comparator of a version requirement: an operator applied to a
partial version (`minor` and `patch` may be absent). -/
structure Comparator where
  op : Op
  major : Nat
  minor : Option Nat
  patch : Option Nat
  pre : List String
deriving DecidableEq, Repr

/-- A version requirement: the conjunction of its comparators. -/
structure VersionReq where
  comparators : List Comparator
deriving DecidableEq, Repr

/-- Drop ASCII whitespace at both ends. -/
def trimChars (cs : List Char) : List Char :=
  (((cs.dropWhile (·.isWhitespace)).reverse).dropWhile (·.isWhitespace)).reverse

/-- Wildcard tokens accepted in minor/patch position of a comparator. -/
def isWildcardTok (cs : List Char) : Bool :=
  cs = ['*'] || cs = ['x'] || cs = ['X']

/-- Parse of one comparator of a requirement, following the `semver` crate:
an optional operator (`=`, `>`, `>=`, `<`, `<=`, `~`, `^`; a bare version
defaults to caret as in Cargo), optional whitespace, then a partial version.
A wildcard in minor or patch position turns the comparator into a wildcard
comparator.  The pre-release and build parts are only accepted on a full
three-component version. -/
def parseComparator (input : List Char) : Option Comparator := do
  let cs := trimChars input
  let (op, rest) :=
    if cs.take 2 = ['>', '='] then (Op.greaterEq, cs.drop 2)
    else if cs.take 2 = ['<', '='] then (Op.lessEq, cs.drop 2)
    else if cs.take 1 = ['>'] then (Op.greater, cs.drop 1)
    else if cs.take 1 = ['<'] then (Op.less, cs.drop 1)
    else if cs.take 1 = ['='] then (Op.exact, cs.drop 1)
    else if cs.take 1 = ['~'] then (Op.tilde, cs.drop 1)
    else if cs.take 1 = ['^'] then (Op.caret, cs.drop 1)
    else (Op.caret, cs)
  let rest := trimChars rest
  let bp := breakAtFirst '+' rest
  let cp := breakAtFirst '-' bp.1
  match splitOnChar '.' cp.1 with
  | [ma] =>
    if cp.2.isSome ∨ bp.2.isSome then none
    else do
      let major ← parseNumericComponent ma
      some ⟨op, major, none, none, []⟩
  | [ma, mi] =>
    if cp.2.isSome ∨ bp.2.isSome then none
    else do
      let major ← parseNumericComponent ma
      if isWildcardTok mi then some ⟨Op.wildcard, major, none, none, []⟩
      else do
        let minor ← parseNumericComponent mi
        some ⟨op, major, some minor, none, []⟩
  | [ma, mi, pa] => do
    let major ← parseNumericComponent ma
    if isWildcardTok mi then
      if isWildcardTok pa ∧ cp.2.isNone ∧ bp.2.isNone then
        some ⟨Op.wildcard, major, none, none, []⟩
      else none
    else do
      let minor ← parseNumericComponent mi
      if isWildcardTok pa then
        if cp.2.isNone ∧ bp.2.isNone then some ⟨Op.wildcard, major, some minor, none, []⟩
        else none
      else do
        let patch ← parseNumericComponent pa
        let pre ← match cp.2 with
          | none => some ([] : List String)
          | some p =>
            let ids := splitOnChar '.' p
            if ids.all validPreIdent then some (ids.map fun l => String.mk l) else none
        match bp.2 with
          | none => some ()
          | some b =>
            let ids := splitOnChar '.' b
            if ids.all validBuildIdent then some () else none
        some ⟨op, major, some minor, some patch, pre⟩
  | _ => none

/-- Parse of a requirement string, modelling `semver::VersionReq::parse`:
the lone string `*` yields the empty comparator list, otherwise the string
is a comma-separated list of comparators, all of which must parse. -/
def VersionReq.parse (s : String) : Option VersionReq :=
  let cs := trimChars s.toList
  if cs = ['*'] then some ⟨[]⟩
  else ((splitOnChar ',' cs).mapM parseComparator).map VersionReq.mk

/-- Comparator match for `Op::Exact` and `Op::Wildcard`
(`matches_exact` in the `semver` crate). -/
def matchesExact (c : Comparator) (v : Version) : Bool :=
  v.major = c.major &&
  (match c.minor with | none => true | some m => v.minor = m) &&
  (match c.patch with | none => true | some p => v.patch = p) &&
  v.pre = c.pre

/-- Comparator match for `Op::Greater` (`matches_greater`). -/
def matchesGreater (c : Comparator) (v : Version) : Bool :=
  if v.major ≠ c.major then v.major > c.major
  else match c.minor with
  | none => false
  | some m =>
    if v.minor ≠ m then v.minor > m
    else match c.patch with
    | none => false
    | some p =>
      if v.patch ≠ p then v.patch > p
      else preLt c.pre v.pre

/-- Comparator match for `Op::Less` (`matches_less`). -/
def matchesLess (c : Comparator) (v : Version) : Bool :=
  if v.major ≠ c.major then v.major < c.major
  else match c.minor with
  | none => false
  | some m =>
    if v.minor ≠ m then v.minor < m
    else match c.patch with
    | none => false
    | some p =>
      if v.patch ≠ p then v.patch < p
      else preLt v.pre c.pre

/-- Comparator match for `Op::Tilde` (`matches_tilde`). -/
def matchesTilde (c : Comparator) (v : Version) : Bool :=
  if v.major ≠ c.major then false
  else if (match c.minor with | none => false | some m => v.minor ≠ m) then false
  else match c.patch with
  | none => true
  | some p =>
    if v.patch ≠ p then v.patch > p
    else preLe c.pre v.pre

/-- Comparator match for `Op::Caret` (`matches_caret`). -/
def matchesCaret (c : Comparator) (v : Version) : Bool :=
  if v.major ≠ c.major then false
  else match c.minor with
  | none => true
  | some m =>
    match c.patch with
    | none => if c.major > 0 then v.minor ≥ m else v.minor = m
    | some p =>
      if c.major > 0 then
        if v.minor ≠ m then v.minor > m
        else if v.patch ≠ p then v.patch > p
        else preLe c.pre v.pre
      else if m > 0 then
        if v.minor ≠ m then false
        else if v.patch ≠ p then v.patch > p
        else preLe c.pre v.pre
      else if v.minor ≠ m ∨ v.patch ≠ p then false
      else preLe c.pre v.pre

/-- Dispatch on the comparator operator (`matches_impl`). -/
def matchesComparator (c : Comparator) (v : Version) : Bool :=
  match c.op with
  | Op.exact => matchesExact c v
  | Op.wildcard => matchesExact c v
  | Op.greater => matchesGreater c v
  | Op.greaterEq => matchesExact c v || matchesGreater c v
  | Op.less => matchesLess c v
  | Op.lessEq => matchesExact c v || matchesLess c v
  | Op.tilde => matchesTilde c v
  | Op.caret => matchesCaret c v

/-- Requirement match (`matches_req`): every comparator must match, and a
pre-release version additionally requires some comparator that names the
same numeric triple and itself carries a pre-release. -/
def VersionReq.matches (req : VersionReq) (v : Version) : Bool :=
  req.comparators.all (fun c => matchesComparator c v) &&
  (v.pre = [] ||
    req.comparators.any (fun c =>
      c.pre ≠ [] && c.major = v.major && c.minor = some v.minor && c.patch = some v.patch))

end Semver

namespace Model

/-- `ReverseDependency` of `src/model.rs`: a dependent crate version and the
requirement it declares on the target crate. -/
structure ReverseDependency where
  name : String
  version : String
  req : String
deriving DecidableEq, Repr, Inhabited

/-- `Krate` of `src/model.rs`, restricted to the fields the traversal uses
(the `dependents` field of the source is never read by the analyzed code). -/
structure Krate where
  name : String
  version : String
deriving DecidableEq, Repr, Inhabited

end Model

namespace Utils

open Semver Model

/-- Version-precedence comparison used for `sort_by(|a, b| a.1.cmp(&b.1))`
on `(index, version)` pairs in `src/utils.rs`. -/
def vle (a b : Nat × Version) : Prop := a.2 ≤ b.2

instance : DecidableRel vle := fun a b => inferInstanceAs (Decidable (a.2 ≤ b.2))

instance : IsTotal (Nat × Version) vle := ⟨fun a b => le_total a.2 b.2⟩

instance : IsTrans (Nat × Version) vle := ⟨fun _ _ _ h h' => le_trans h h'⟩

/-- `select_oldest_and_newest_versions` of `src/utils.rs` (the identical copy
in `src/dependency_analyzer.rs` is embedded by this same definition): pair
each version with its index in the input list, stably sort by version
precedence, return the first element always (when non-empty) and the last
element only when there are at least two.  The stable sort of Rust is
embedded as a stable insertion sort. -/
def select_oldest_and_newest_versions (versions : List Version) :
    Option (Nat × Version) × Option (Nat × Version) :=
  if versions = [] then (none, none)
  else
    let sorted := List.insertionSort vle versions.enum
    (sorted.head?, if sorted.length > 1 then sorted.getLast? else none)

/-- The filtering body of `filter_versions_by_version_range`: keep the
versions that parse and match the requirement (`filter_map` with
`Version::parse(...).ok()?` and `matches(...).then_some(...)`). -/
def filteredVersions (versions : List String) (version_req : VersionReq) : List Version :=
  versions.filterMap fun version =>
    (Version.parse version).bind fun parsed_version =>
      if version_req.matches parsed_version then some parsed_version else none

/-- `filter_versions_by_version_range` of `src/utils.rs`.  The source calls
`VersionReq::parse(version_range).unwrap()`; the panic on an unparseable
range is embedded as the outer `none`. -/
def filter_versions_by_version_range (versions : List String) (version_range : String) :
    Option (List Version) :=
  (VersionReq.parse version_range).map fun version_req =>
    filteredVersions versions version_req

/-- `select_two_end_vers` of `src/utils.rs`: filter, select the two
endpoints, and flatten the two options into a list. -/
def select_two_end_vers (versions : List String) (version_range : String) :
    Option (List (Nat × Version)) :=
  (filter_versions_by_version_range versions version_range).map fun filtered_versions =>
    let r := select_oldest_and_newest_versions filtered_versions
    [r.1, r.2].filterMap id

/-- `filter_dependents_by_version_req` of `src/utils.rs`: parse the precise
version (propagating failure, the source) and keep the dependents whose
requirement parses and matches it. -/
def filter_dependents_by_version_req (dependents : List ReverseDependency)
    (precise_version : String) : Option (List ReverseDependency) :=
  (Version.parse precise_version).map fun pv =>
    dependents.filter fun dep =>
      match VersionReq.parse dep.req with
      | some req => req.matches pv
      | none => false

/-- The per-name selection step inside `get_reverse_deps_for_krate` of
`src/utils.rs`: run `select_two_end_vers` on the version strings of one
name-group of reverse dependencies with the range `>=0.0.0`, then map each
returned index back into the group (`revdeps[idx].clone()`). -/
def select_revdeps_two_ends (revdeps : List ReverseDependency) :
    Option (List ReverseDependency) :=
  (select_two_end_vers (revdeps.map (·.version)) ">=0.0.0").map fun sel =>
    sel.map fun p => revdeps.getD p.1 default

/-- Specification of the Version Selector endpoint contract, for a range
that parses to `req`: `select_two_end_vers` succeeds, its result has as many
elements as the filtered list up to two, every returned version is one of
the filtered versions, the first returned version is minimal among them,
and when at least two versions survive the filter the last returned version
is maximal among them. -/
def twoEndSpec (versions : List String) (version_range : String) (req : VersionReq) : Prop :=
  ∃ out, select_two_end_vers versions version_range = some out ∧
    out.length = min (filteredVersions versions req).length 2 ∧
    (∀ p ∈ out, p.2 ∈ filteredVersions versions req) ∧
    (∀ p, out.head? = some p → ∀ v ∈ filteredVersions versions req, p.2 ≤ v) ∧
    (2 ≤ (filteredVersions versions req).length →
      ∃ q, out.getLast? = some q ∧ ∀ v ∈ filteredVersions versions req, v ≤ q.2)

end Utils

namespace DependencyAnalyzer

open Semver Model Utils

/-- `VisitedCrateVersion` of `src/dependency_analyzer.rs`: the key of the
visited set. -/
structure VisitedCrateVersion where
  name : String
  version : String
deriving DecidableEq, Repr

/-- Environment of the orchestrator: the external collaborators of
`src/dependency_analyzer.rs` (registry database, crate materialization,
manifest patching, and the outcome of the per-crate call-graph analysis),
abstracted into oracle functions of the crate name and version.  The
concurrency of the source (`buffer_unordered` with a semaphore) only
permutes the order in which results of one level are collected; the
properties proved below are about which keys are processed and how often,
which is order-independent, so the embedding processes each level in list
order. -/
structure Env where
  queryCrateVersions : String → List String
  queryDependents : String → List ReverseDependency
  materializeOk : String → String → Bool
  patchOk : String → String → Bool
  analysisReach : String → String → Bool

/-- `DependencyAnalyzer::filter_dependents_by_version_req` of
`src/dependency_analyzer.rs` (the analyzer's own total variant: an
unparseable precise version or requirement simply filters the dependent
out). -/
def filter_dependents_by_version_req (dependents : List ReverseDependency)
    (precise_version : String) : List ReverseDependency :=
  dependents.filter fun dep =>
    match Version.parse precise_version, VersionReq.parse dep.req with
    | some ver, some dep_req => dep_req.matches ver
    | _, _ => false

/-- `DependencyAnalyzer::is_valid_dependent`: the dependent is kept when the
current version parses, its declared requirement parses and matches, and the
call-graph analysis of the dependent reports a reaching call (the latter
abstracted by the `analysisReach` oracle). -/
def is_valid_dependent (env : Env) (current_version req dep_name dep_version : String) : Bool :=
  match Version.parse current_version, VersionReq.parse req with
  | some ver, some dep_req => dep_req.matches ver && env.analysisReach dep_name dep_version
  | _, _ => false

/-- Insertion into the name-grouped dependents map.  The source groups into a
`HashMap<String, Vec<_>>` preserving per-key insertion order; the embedding
uses an association list keyed by first occurrence (the iteration order of
the map does not matter for the properties below). -/
def insertGrouped (key : String) (v : Version × ReverseDependency) :
    List (String × List (Version × ReverseDependency)) →
    List (String × List (Version × ReverseDependency))
  | [] => [(key, [v])]
  | (k, vs) :: rest =>
    if k = key then (k, vs ++ [v]) :: rest else (k, vs) :: insertGrouped key v rest

/-- Grouping of the surviving reverse dependencies by crate name, keeping
only those whose version string parses (`if let Ok(version) = Version::parse`). -/
def groupDependentsByName (deps : List ReverseDependency) :
    List (String × List (Version × ReverseDependency)) :=
  deps.foldl
    (fun acc dep =>
      match Version.parse dep.version with
      | some version => insertGrouped dep.name (version, dep) acc
      | none => acc)
    []

/-- Per-group two-endpoint selection of `process_single_bfs_node`: select
the oldest and newest of the group's versions and map the returned indices
back into the group (`versions[idx].1.clone()`). -/
def selectGroupTwoEnds (group : List (Version × ReverseDependency)) :
    List ReverseDependency :=
  let selected := select_oldest_and_newest_versions (group.map (·.1))
  [selected.1, selected.2].filterMap fun x =>
    match x with
    | some (idx, _) => some (group.getD idx (default, default)).2
    | none => none

/-- `DependencyAnalyzer::process_single_bfs_node` of
`src/dependency_analyzer.rs`: query the dependents of the node, keep those
whose requirement matches the node's version, group them by name, reduce
each group to its two endpoint versions, then keep each selected dependent
whose materialization and patching succeed and which
`is_valid_dependent` accepts, as the emitted child nodes. -/
def process_single_bfs_node (env : Env) (krate : Krate) : List Krate :=
  let reverse_dependencies := env.queryDependents krate.name
  let filtered := filter_dependents_by_version_req reverse_dependencies krate.version
  let groups := groupDependentsByName filtered
  let selected_dependents := groups.flatMap fun g => selectGroupTwoEnds g.2
  selected_dependents.filterMap fun rd =>
    if env.materializeOk rd.name rd.version &&
       env.patchOk rd.name rd.version &&
       is_valid_dependent env krate.version rd.req rd.name rd.version
    then some ⟨rd.name, rd.version⟩
    else none

/-- The `(name, version)` key of a node, as inserted into the visited set. -/
def keyOf (n : Krate) : VisitedCrateVersion := ⟨n.name, n.version⟩

/-- Number of occurrences of a key among a list of nodes. -/
def countKey (k : VisitedCrateVersion) (l : List Krate) : Nat :=
  l.countP fun n => decide (keyOf n = k)

/-- The visited-set filtering loop at the end of
`DependencyAnalyzer::process_bfs_level`: for each emitted child in order,
insert its `(name, version)` key into the visited set and keep the child
only when the key was newly inserted (`if visited.insert(cv)`).  The
`HashSet` is embedded as the list of its elements. -/
def filterNewNodes (visited : List VisitedCrateVersion) :
    List Krate → List VisitedCrateVersion × List Krate
  | [] => (visited, [])
  | node :: rest =>
    let cv := keyOf node
    if cv ∈ visited then filterNewNodes visited rest
    else
      let r := filterNewNodes (visited ++ [cv]) rest
      (r.1, node :: r.2)

/-- `DependencyAnalyzer::process_bfs_level`: process every node of the
level, concatenate the emitted children, and keep those whose key is new,
updating the visited set. -/
def process_bfs_level (env : Env) (current_level : List Krate)
    (visited : List VisitedCrateVersion) : List VisitedCrateVersion × List Krate :=
  let results := current_level.map (process_single_bfs_node env)
  filterNewNodes visited results.flatten

/-- The level loop of `DependencyAnalyzer::bfs_from_queue`, with explicit
fuel bounding the number of levels (the source loops until the queue is
empty; every property below is about the processed trace of a terminating
prefix).  Returns the list of processed nodes in processing order. -/
def bfs_from_queue (env : Env) : Nat → List Krate → List VisitedCrateVersion → List Krate
  | 0, _, _ => []
  | fuel + 1, queue, visited =>
    if queue = [] then []
    else
      let r := process_bfs_level env queue visited
      queue ++ bfs_from_queue env fuel r.2 r.1

/-- `DependencyAnalyzer::analyze` of `src/dependency_analyzer.rs`: parse the
version requirement (the source calls `.unwrap()`, embedded as `none`),
filter the crate's versions to those matching, seed the queue with the
oldest and newest matching versions, and run the BFS.  Returns the processed
trace. -/
def analyze (env : Env) (fuel : Nat) (crate_name version_range : String) :
    Option (List Krate) :=
  match VersionReq.parse version_range with
  | none => none
  | some version_req =>
    let versions := env.queryCrateVersions crate_name
    let matched_versions := versions.filterMap fun version =>
      (Version.parse version).bind fun parsed_version =>
        if version_req.matches parsed_version then some parsed_version else none
    let r := select_oldest_and_newest_versions matched_versions
    let bfs_queue := [r.1, r.2].filterMap fun x =>
      match x with
      | some (_, v) => some (⟨crate_name, v.render⟩ : Krate)
      | none => none
    some (bfs_from_queue env fuel bfs_queue [])

/-- Concrete environment used to evaluate the traversal on a registry in
which crate `a` at version `1.0.0` declares a dependency on crate `a`
itself (for example a dev-dependency of a crate on itself, which the
dependents query of `src/database.rs` reports like any other dependency
row), and every materialization, patch and analysis succeeds. -/
def selfDepEnv : Env where
  queryCrateVersions := fun n => if n = "a" then ["1.0.0"] else []
  queryDependents := fun n => if n = "a" then [⟨"a", "1.0.0", "=1.0.0"⟩] else []
  materializeOk := fun _ _ => true
  patchOk := fun _ _ => true
  analysisReach := fun _ _ => true

end DependencyAnalyzer

namespace Callgraph

open Semver

/-- Split a character list at every occurrence of the two-character
separator `::`, mirroring `str::split("::")`. -/
def splitDoubleColon : List Char → List (List Char)
  | [] => [[]]
  | ':' :: ':' :: rest => [] :: splitDoubleColon rest
  | x :: xs =>
    match splitDoubleColon xs with
    | [] => [[x]]
    | y :: ys => (x :: y) :: ys

/-- Leaf name of a fully qualified symbol path: the substring after the last
`::` (`target_function_path.split("::").last().unwrap()` in
`src/callgraph.rs`; `split` always yields at least one segment, so the
`unwrap` cannot fail). -/
def leafName (path : String) : String :=
  String.mk ((splitDoubleColon path.toList).getLastD [])

/-- Outcome of one external `grep -r` invocation, as distinguished by
`check_src_contain_target_function_single`: a match found (exit 0), a clean
miss (exit 1 with empty stdout), or any other failure. -/
inductive GrepResult
  | found
  | notFound
  | err
deriving DecidableEq, Repr

/-- `str::trim` on a string, reusing the character-level trim. -/
def trimStr (s : String) : String :=
  String.mk (trimChars s.toList)

/-- The trimmed segments of the comma-separated target list, i.e. the
individual targets the prefilter iterates over. -/
def splitTargets (target_function_paths : String) : List String :=
  (splitOnChar ',' target_function_paths.toList).map fun cs => String.mk (trimChars cs)

/-- `check_src_contain_target_function_single` of `src/callgraph.rs`: run
the external text search for the leaf name of one target symbol over the
source root.  The search tool is abstracted as an oracle from
(pattern, source root) to `GrepResult`. -/
def check_src_contain_target_function_single
    (grep : String → String → GrepResult) (src target_function_path : String) :
    Except Unit Bool :=
  let function_name := leafName target_function_path
  match grep function_name src with
  | GrepResult.found => Except.ok true
  | GrepResult.notFound => Except.ok false
  | GrepResult.err => Except.error ()

/-- The iteration of `check_src_contain_target_function` over the split
target list: trimmed empty segments are skipped, the first hit returns
`true` immediately, a clean miss continues, and a search error is returned
as an error. -/
def checkTargetsLoop (grep : String → String → GrepResult) (src : String) :
    List String → Except Unit Bool
  | [] => Except.ok false
  | path :: rest =>
    let path := trimStr path
    if path = "" then checkTargetsLoop grep src rest
    else
      match check_src_contain_target_function_single grep src path with
      | Except.ok true => Except.ok true
      | Except.ok false => checkTargetsLoop grep src rest
      | Except.error e => Except.error e

/-- `check_src_contain_target_function` of `src/callgraph.rs`: split the
comma-separated target list and iterate. -/
def check_src_contain_target_function
    (grep : String → String → GrepResult) (src target_function_paths : String) :
    Except Unit Bool :=
  checkTargetsLoop grep src
    ((splitOnChar ',' target_function_paths.toList).map fun cs => String.mk cs)

/-- Timing behaviour of one spawned analyzer subprocess, for the deadline
model of `run_function_analysis` (`src/callgraph.rs`) and
`graceful_kill_process` (`src/process.rs`).  Times are wall-clock seconds
after the spawn.  `naturalExit` is when the process would exit on its own
(`none`: it runs forever); `termRespond` is how long after receiving the
cooperative SIGTERM it would exit voluntarily (`none`: it ignores SIGTERM);
`termSendOk` is whether sending SIGTERM succeeds; `exitSuccess` is its exit
status on a natural exit. -/
structure ProcBehavior where
  naturalExit : Option Nat
  termRespond : Option Nat
  termSendOk : Bool
  exitSuccess : Bool

/-- `graceful_kill_process` of `src/process.rs`, called at time `termAt`
with grace period `graceful_timeout_secs`; returns the time at which the
child is dead and reaped.  If sending SIGTERM fails the child is SIGKILLed
immediately; otherwise the runner waits for the child to exit, but at most
`graceful_timeout_secs` seconds, after which it SIGKILLs and reaps
(the SIGKILL itself is modelled as immediate). -/
def graceful_kill_process (b : ProcBehavior) (termAt graceful_timeout_secs : Nat) : Nat :=
  if !b.termSendOk then termAt
  else
    let exitCandidate : Option Nat :=
      match b.naturalExit, b.termRespond with
      | some n, some d => some (min n (termAt + d))
      | some n, none => some n
      | none, some d => some (termAt + d)
      | none, none => none
    match exitCandidate with
    | some t => if t ≤ termAt + graceful_timeout_secs then t else termAt + graceful_timeout_secs
    | none => termAt + graceful_timeout_secs

/-- Deadline portion of `run_function_analysis` of `src/callgraph.rs`: the
`tokio::select!` between the child's exit and a 240-second sleep.  `collect`
abstracts the result of collecting the `callers-*.json` files on a
successful exit.  Returns the time at which the subprocess is gone, and the
reported analysis result (`none` is "not reached"). -/
def run_function_analysis (b : ProcBehavior) (collect : Option String) :
    Nat × Option String :=
  match b.naturalExit with
  | some t =>
    if t ≤ 240 then (t, if b.exitSuccess then collect else none)
    else (graceful_kill_process b 240 10, none)
  | none => (graceful_kill_process b 240 10, none)

end Callgraph

namespace Model

/-- `Krate::download` of `src/model.rs`, as a function of the cache state
and of the network.  `crateFile` is the size of the already-cached archive
file, when one exists; `curlWrites` is the size of the file the `curl`
invocation would leave on disk (`none`: no file is produced, so the
following metadata lookup fails).  Returns the download result and the new
archive-file state.  The source skips the download entirely when the
archive file already exists; otherwise it fetches and then fails if the
downloaded file has size zero. -/
def download (crateFile : Option Nat) (curlWrites : Option Nat) :
    Except Unit Unit × Option Nat :=
  match crateFile with
  | some n => (Except.ok (), some n)
  | none =>
    match curlWrites with
    | none => (Except.error (), none)
    | some n =>
      if n = 0 then (Except.error (), some 0)
      else (Except.ok (), some n)

/-- Working tree of a crate: the manifest contents (when the file is
readable) and the lockfile pins. -/
structure Worktree where
  cargoToml : Option String
  cargoLock : List (String × String)
deriving DecidableEq, Repr

/-- Modelled from the spec: the `cargo update --precise <version> --package
<name>` subprocess that `Krate::patch_cargo_toml_with_parent` spawns is an
external tool; per its documented behaviour it rewrites the lockfile entry
of the named package to the exact version and never modifies `Cargo.toml`.
`ok` abstracts whether the invocation succeeds. -/
def cargoUpdatePrecise (wt : Worktree) (package version : String) (ok : Bool) :
    Worktree × Bool :=
  if ok then
    ({ wt with cargoLock := (package, version) :: wt.cargoLock.filter fun e => e.1 ≠ package },
      true)
  else (wt, false)

/-- `Krate::patch_cargo_toml_with_parent` of `src/model.rs`: read the
manifest contents (a failed read yields `none` via `.ok()`), run
`cargo update --precise`, and return the original manifest contents on
success or an error on a failed update. -/
def patch_cargo_toml_with_parent (wt : Worktree) (parent_name parent_version : String)
    (cargoOk : Bool) : Except Unit (Option String) × Worktree :=
  let original_content := wt.cargoToml
  let r := cargoUpdatePrecise wt parent_name parent_version cargoOk
  if r.2 then (Except.ok original_content, r.1) else (Except.error (), r.1)

/-- Character-level check that `needle` starts `hay`. -/
def leadsWith : List Char → List Char → Bool
  | [], _ => true
  | _ :: _, [] => false
  | a :: as, b :: bs => a = b && leadsWith as bs

/-- Character-level substring check (used only to state that a manifest does
not contain a pinned-version string). -/
def containsSub : List Char → List Char → Bool
  | needle, [] => leadsWith needle []
  | needle, x :: xs => leadsWith needle (x :: xs) || containsSub needle xs

/-- Substring check on strings. -/
def containsStr (needle hay : String) : Bool :=
  containsSub needle.toList hay.toList

end Model

namespace RunFromCsv

/-- `Row` of `src/bin/run_from_csv.rs`. -/
structure Row where
  cve_id : String
  crate_name : String
  version_range : String
  target_function_paths : String
deriving DecidableEq, Repr

/-- The dispatch loop of `main` in `src/bin/run_from_csv.rs`: each row
spawns a `cvetracker4rs` process with the shared `LOG_DIR`; `runOk` tells
whether that process exits successfully.  Returns the list of dispatched
rows (each with the log directory passed to it) and the driver's result.
The source returns an error as soon as one row's process exits non-zero. -/
def mainLoop (runOk : Row → Bool) (log_dir : String) : List Row → List (Row × String) × Except Unit Unit
  | [] => ([], Except.ok ())
  | row :: rest =>
    if runOk row then
      let r := mainLoop runOk log_dir rest
      ((row, log_dir) :: r.1, r.2)
    else ([(row, log_dir)], Except.error ())

end RunFromCsv

section Theorems

open Semver Model Utils

/-- In a list that is pairwise related by `R`, every element is the last
element or is related to it. -/
theorem pairwise_getLast_or {α : Type} {R : α → α → Prop} :
    ∀ (l : List α) (_ : l.Pairwise R) (hne : l ≠ []) (x : α) (_ : x ∈ l),
      x = l.getLast hne ∨ R x (l.getLast hne)
  | [a], _, _, x, hx => by
    simp only [List.mem_singleton] at hx
    subst hx
    exact Or.inl rfl
  | a :: b :: t, h, hne, x, hx => by
    rcases List.mem_cons.mp hx with rfl | hx'
    · right
      have hlast : (b :: t).getLast (by simp) ∈ b :: t := List.getLast_mem _
      have := List.rel_of_pairwise_cons h hlast
      simpa [List.getLast_cons] using this
    · have IH := pairwise_getLast_or (b :: t) h.tail (by simp) x hx'
      simpa [List.getLast_cons] using IH

/-- C1.  Version Selector endpoint contract: for every list of version
strings and every range expression that parses, `select_two_end_vers`
returns the versions of the list that parse as SemVer and satisfy the
range, reduced to the minimal and maximal such versions under the SemVer
precedence order; exactly one surviving version yields a one-element
result, none yields the empty result, and unparseable version strings are
skipped without error. -/
theorem select_two_end_vers_endpoints
    (versions : List String) (version_range : String) (req : VersionReq)
    (h : VersionReq.parse version_range = some req) :
    twoEndSpec versions version_range req := by
  unfold twoEndSpec
  set F := filteredVersions versions req with hF
  have hsel : select_two_end_vers versions version_range =
      some (let r := select_oldest_and_newest_versions F
            [r.1, r.2].filterMap id) := by
    unfold select_two_end_vers filter_versions_by_version_range
    rw [h]
    rfl
  by_cases hFnil : F = []
  · refine ⟨_, hsel, ?_⟩
    simp [select_oldest_and_newest_versions, hFnil]
  · have hperm : (List.insertionSort vle F.enum).Perm F.enum := List.perm_insertionSort vle F.enum
    have hsorted : (List.insertionSort vle F.enum).Pairwise vle := List.sorted_insertionSort vle F.enum
    have hlen : (List.insertionSort vle F.enum).length = F.length := by
      rw [hperm.length_eq, List.enum_length]
    have hmemF : ∀ v ∈ F, ∃ p ∈ List.insertionSort vle F.enum, p.2 = v := by
      intro v hv
      have : v ∈ F.enum.map Prod.snd := by rw [List.enum_map_snd]; exact hv
      obtain ⟨p, hp, hpv⟩ := List.mem_map.mp this
      exact ⟨p, hperm.mem_iff.mpr hp, hpv⟩
    have hmemF' : ∀ p ∈ List.insertionSort vle F.enum, p.2 ∈ F := by
      intro p hp
      have : p ∈ F.enum := hperm.mem_iff.mp hp
      have : p.2 ∈ F.enum.map Prod.snd := List.mem_map_of_mem _ this
      rwa [List.enum_map_snd] at this
    have hne : List.insertionSort vle F.enum ≠ [] := by
      intro hcon
      rw [hcon] at hlen
      exact hFnil (List.length_eq_zero.mp hlen.symm)
    obtain ⟨hd, tl, hcons⟩ := List.exists_cons_of_ne_nil hne
    have hsel2 : select_oldest_and_newest_versions F =
        ((hd :: tl).head?, if (hd :: tl).length > 1 then (hd :: tl).getLast? else none) := by
      unfold select_oldest_and_newest_versions
      rw [if_neg hFnil, hcons]
    have hhd_mem : hd ∈ List.insertionSort vle F.enum := by
      rw [hcons]; exact List.mem_cons_self _ _
    have hhdmin : ∀ v ∈ F, hd.2 ≤ v := by
      intro v hv
      obtain ⟨p, hp, rfl⟩ := hmemF v hv
      rw [hcons] at hp
      rcases List.mem_cons.mp hp with heq | hp'
      · rw [heq]
      · have hvle : vle hd p := List.rel_of_pairwise_cons (hcons ▸ hsorted) hp'
        exact hvle
    by_cases h1 : (hd :: tl).length > 1
    · have hlast := List.getLast?_eq_getLast (hd :: tl) (by simp)
      set lst := (hd :: tl).getLast (by simp) with hlst
      have hlst_mem : lst ∈ List.insertionSort vle F.enum := by
        rw [hcons]; exact List.getLast_mem _
      have hlastmax : ∀ v ∈ F, v ≤ lst.2 := by
        intro v hv
        obtain ⟨p, hp, rfl⟩ := hmemF v hv
        rw [hcons] at hp
        rcases pairwise_getLast_or (hd :: tl) (hcons ▸ hsorted) (by simp) p hp with heq | hrel
        · rw [heq]
        · exact hrel
      refine ⟨[hd, lst], ?_, ?_, ?_, ?_, ?_⟩
      · rw [hsel]
        simp only [hsel2, if_pos h1, hlast]
        rfl
      · have hFlen : F.length = (hd :: tl).length := by rw [← hlen, hcons]
        have h2le : 2 ≤ (hd :: tl).length := h1
        have hmin : min (hd :: tl).length 2 = 2 := min_eq_right h2le
        rw [hFlen, hmin]
        rfl
      · intro p hp
        have hp' : p = hd ∨ p = lst := by simpa using hp
        rcases hp' with rfl | rfl
        · exact hmemF' _ hhd_mem
        · exact hmemF' _ hlst_mem
      · intro p hp
        have hp' : hd = p := Option.some.inj hp
        subst hp'
        exact hhdmin
      · intro _
        exact ⟨lst, rfl, hlastmax⟩
    · have htl : tl = [] := by
        rw [List.length_cons] at h1
        have : tl.length = 0 := by omega
        exact List.length_eq_zero.mp this
      subst htl
      have hFlen : F.length = 1 := by rw [← hlen, hcons]; rfl
      refine ⟨[hd], ?_, ?_, ?_, ?_, ?_⟩
      · rw [hsel]
        simp only [hsel2]
        rfl
      · rw [hFlen]
        simp
      · intro p hp
        have hp' : p = hd := List.mem_singleton.mp hp
        subst hp'
        exact hmemF' _ hhd_mem
      · intro p hp
        have hp' : hd = p := Option.some.inj hp
        subst hp'
        exact hhdmin
      · intro hcon
        rw [hFlen] at hcon
        omega

/-- Witness for C1 at a concrete input: the range `>=1.0.0` parses, and the
endpoint contract holds for the version list
`["2.0.0", "1.0.0", "1.5.0"]`. -/
theorem select_two_end_vers_endpoints_witness :
    VersionReq.parse ">=1.0.0" = some ⟨[⟨Op.greaterEq, 1, some 0, some 0, []⟩]⟩ ∧
    twoEndSpec ["2.0.0", "1.0.0", "1.5.0"] ">=1.0.0"
      ⟨[⟨Op.greaterEq, 1, some 0, some 0, []⟩]⟩ :=
  ⟨by decide,
   select_two_end_vers_endpoints ["2.0.0", "1.0.0", "1.5.0"] ">=1.0.0"
     ⟨[⟨Op.greaterEq, 1, some 0, some 0, []⟩]⟩ (by decide)⟩

/-- C3.  Failing input for index traceability: on the version list
`["1.0.0-alpha.1", "1.0.0"]` with range `>=0.0.0`, the pre-release string
is parsed but filtered out, so `select_two_end_vers` returns index 0 paired
with version 1.0.0, while element 0 of the original input is
`"1.0.0-alpha.1"`, which does not parse to that version: the returned index
points into the filtered list, not the original one.  Consequently the
caller `get_reverse_deps_for_krate`, which indexes the original reverse
dependency group with the returned index, selects the reverse dependency at
version `1.0.0-alpha.1` even though the selector chose version `1.0.0`. -/
theorem select_two_end_vers_index_mismatch :
    select_two_end_vers ["1.0.0-alpha.1", "1.0.0"] ">=0.0.0" =
      some [(0, ⟨1, 0, 0, [], []⟩)] ∧
    Version.parse "1.0.0-alpha.1" ≠ some ⟨1, 0, 0, [], []⟩ ∧
    select_revdeps_two_ends [⟨"b", "1.0.0-alpha.1", "^0.9"⟩, ⟨"b", "1.0.0", "^0.9"⟩] =
      some [⟨"b", "1.0.0-alpha.1", "^0.9"⟩] := by
  refine ⟨by decide, by decide, by decide⟩

/-- C10.  The version-range argument is an unchecked precondition: both the
Version Selector (`select_two_end_vers`, through
`VersionReq::parse(..).unwrap()` in `filter_versions_by_version_range`)
and the orchestrator entry point (`DependencyAnalyzer::analyze`, through
the same unwrap) panic exactly when the range string does not parse, and
are total otherwise. -/
theorem unparseable_range_panics (versions : List String) (version_range : String)
    (env : DependencyAnalyzer.Env) (fuel : Nat) (crate_name : String) :
    ((select_two_end_vers versions version_range).isNone ↔
      (VersionReq.parse version_range).isNone) ∧
    ((DependencyAnalyzer.analyze env fuel crate_name version_range).isNone ↔
      (VersionReq.parse version_range).isNone) := by
  constructor
  · unfold select_two_end_vers filter_versions_by_version_range
    cases VersionReq.parse version_range <;> simp
  · unfold DependencyAnalyzer.analyze
    cases VersionReq.parse version_range <;> simp

/-- C9.  Counterexample to "a successful download never leaves a zero-length
archive in the cache": when a zero-length archive file already exists (for
example left behind by an earlier fetch whose size check failed after `curl`
wrote an empty file), `Krate::download` returns success without any size
verification, and the zero-length archive stays in the cache. -/
theorem download_zero_length_cache_cex :
    (Model.download (some 0) none).1 = Except.ok () ∧
    (Model.download (some 0) none).2 = some 0 := by
  exact ⟨rfl, rfl⟩

/-- C9 as amended.  On the fetch path (no cached archive file),
`Krate::download` succeeds exactly when the fetch produces a file of
non-zero size; in particular a zero-length downloaded file is treated as a
download failure.  When an archive file already exists, however, the
download succeeds without size verification, so a zero-length cached
archive can survive a successful `download` call. -/
theorem download_zero_size_is_failure (curlWrites : Option Nat) :
    ((Model.download none curlWrites).1 = Except.ok () ↔
      ∃ n, curlWrites = some n ∧ 0 < n) ∧
    (curlWrites = some 0 → (Model.download none curlWrites).1 = Except.error ()) ∧
    ((Model.download (some 0) curlWrites).1 = Except.ok ()) := by
  refine ⟨?_, ?_, rfl⟩
  · cases curlWrites with
    | none => simp [Model.download]
    | some n =>
      by_cases h : n = 0
      · subst h
        simp [Model.download]
      · simp [Model.download, h]
        omega
  · intro h
    subst h
    rfl

/-- Witness for C9 as amended: with a fetch that writes 3 bytes the
download succeeds. -/
theorem download_zero_size_is_failure_witness :
    (Model.download none (some 3)).1 = Except.ok () :=
  (download_zero_size_is_failure (some 3)).1.mpr ⟨3, rfl, by decide⟩

/-- C5.  Counterexample to the Manifest Patcher contract: on a working tree
whose manifest declares the parent at `1.0`, a successful
`Krate::patch_cargo_toml_with_parent` run leaves the manifest text
unchanged: the parent's entries are not rewritten to the pinned version
`=2.0.0` (the text does not even contain `2.0.0`) and no trailing comment
is added (the text contains no `#`).  The pin happens in the lockfile via
`cargo update --precise`, not in the manifest. -/
theorem patch_manifest_unchanged_cex :
    (Model.patch_cargo_toml_with_parent ⟨some "mylib = \"1.0\"", []⟩ "mylib" "2.0.0" true).2.cargoToml
      = some "mylib = \"1.0\"" ∧
    (Model.patch_cargo_toml_with_parent ⟨some "mylib = \"1.0\"", []⟩ "mylib" "2.0.0" true).1
      = Except.ok (some "mylib = \"1.0\"") ∧
    Model.containsStr "2.0.0" "mylib = \"1.0\"" = false ∧
    Model.containsStr "#" "mylib = \"1.0\"" = false := by
  refine ⟨rfl, rfl, by decide, by decide⟩

/-- C5 as amended.  `Krate::patch_cargo_toml_with_parent` pins the parent
through the package manager's lockfile update: the manifest contents are
never modified, the lockfile entry of the parent is set to the exact parent
version when the update succeeds, and the manifest contents as read before
the call (or `none` when unreadable) are returned on success, an error on a
failed update. -/
theorem patch_cargo_toml_with_parent_spec (wt : Model.Worktree)
    (parent_name parent_version : String) (cargoOk : Bool) :
    (Model.patch_cargo_toml_with_parent wt parent_name parent_version cargoOk).2.cargoToml
      = wt.cargoToml ∧
    (Model.patch_cargo_toml_with_parent wt parent_name parent_version cargoOk).1
      = (if cargoOk then Except.ok wt.cargoToml else Except.error ()) ∧
    (cargoOk = true →
      (parent_name, parent_version) ∈
        (Model.patch_cargo_toml_with_parent wt parent_name parent_version cargoOk).2.cargoLock) := by
  unfold Model.patch_cargo_toml_with_parent Model.cargoUpdatePrecise
  cases cargoOk with
  | false => simp
  | true => simp

/-- Witness for C5 as amended at a concrete working tree. -/
theorem patch_cargo_toml_with_parent_spec_witness :
    ("p", "2.0.0") ∈
      (Model.patch_cargo_toml_with_parent ⟨some "m", [("p", "1.0.0")]⟩ "p" "2.0.0" true).2.cargoLock :=
  (patch_cargo_toml_with_parent_spec ⟨some "m", [("p", "1.0.0")]⟩ "p" "2.0.0" true).2.2 rfl

/-- C6.  Counterexample to batch-driver row independence: with two rows and
a first row whose analysis process exits non-zero, the driver dispatches
only the first row, returns an error, and the second row is never
dispatched. -/
theorem row_failure_stops_batch_cex :
    RunFromCsv.mainLoop (fun _ => false) "logs/t"
        [⟨"CVE-1", "a", "=1.0.0", "f::g"⟩, ⟨"CVE-2", "b", "=1.0.0", "f::g"⟩] =
      ([(⟨"CVE-1", "a", "=1.0.0", "f::g"⟩, "logs/t")], Except.error ()) ∧
    (⟨"CVE-2", "b", "=1.0.0", "f::g"⟩, "logs/t") ∉
      (RunFromCsv.mainLoop (fun _ => false) "logs/t"
        [⟨"CVE-1", "a", "=1.0.0", "f::g"⟩, ⟨"CVE-2", "b", "=1.0.0", "f::g"⟩]).1 := by
  refine ⟨rfl, by decide⟩

/-- C6 as amended.  The batch driver dispatches the rows sequentially, each
as an independent process with the one shared `LOG_DIR`; when every row's
process succeeds, all rows are dispatched and the driver succeeds, and the
first row whose process exits non-zero aborts the batch: the driver returns
an error and the rows after it are not dispatched. -/
theorem mainLoop_row_dispatch (runOk : RunFromCsv.Row → Bool) (log_dir : String) :
    (∀ rows, (∀ r ∈ rows, runOk r = true) →
      RunFromCsv.mainLoop runOk log_dir rows =
        (rows.map fun r => (r, log_dir), Except.ok ())) ∧
    (∀ pre row post, (∀ r ∈ pre, runOk r = true) → runOk row = false →
      RunFromCsv.mainLoop runOk log_dir (pre ++ row :: post) =
        ((pre ++ [row]).map fun r => (r, log_dir), Except.error ())) := by
  constructor
  · intro rows
    induction rows with
    | nil => intro _; rfl
    | cons r rest ih =>
      intro hall
      have hr : runOk r = true := hall r (List.mem_cons_self _ _)
      have hrest := ih fun x hx => hall x (List.mem_cons_of_mem _ hx)
      simp [RunFromCsv.mainLoop, hr, hrest]
  · intro pre
    induction pre with
    | nil =>
      intro row post _ hrow
      simp [RunFromCsv.mainLoop, hrow]
    | cons r rest ih =>
      intro row post hall hrow
      have hr : runOk r = true := hall r (List.mem_cons_self _ _)
      have hrest := ih row post (fun x hx => hall x (List.mem_cons_of_mem _ hx)) hrow
      simp [RunFromCsv.mainLoop, hr, hrest]

/-- Witness for C6 as amended: a two-row batch whose processes all succeed
dispatches both rows and succeeds. -/
theorem mainLoop_row_dispatch_witness :
    RunFromCsv.mainLoop (fun _ => true) "logs/t"
        [⟨"CVE-1", "a", "=1.0.0", "f::g"⟩, ⟨"CVE-2", "b", "=1.0.0", "f::g"⟩] =
      ([(⟨"CVE-1", "a", "=1.0.0", "f::g"⟩, "logs/t"),
        (⟨"CVE-2", "b", "=1.0.0", "f::g"⟩, "logs/t")], Except.ok ()) :=
  (mainLoop_row_dispatch (fun _ => true) "logs/t").1
    [⟨"CVE-1", "a", "=1.0.0", "f::g"⟩, ⟨"CVE-2", "b", "=1.0.0", "f::g"⟩]
    (fun _ _ => rfl)

/-- C4.  Deadline containment of the Call-Graph Runner: whenever the
analyzer subprocess has not exited on its own within the 240-second
deadline, `run_function_analysis` reports the node as not reached, and the
subprocess is terminated and reaped no later than 250 seconds after its
spawn: the runner sends SIGTERM at the deadline, waits at most the
10-second grace period for a voluntary exit, and otherwise SIGKILLs, so no
subprocess outlives the deadline by more than the grace period. -/
theorem run_function_analysis_deadline (b : Callgraph.ProcBehavior)
    (collect : Option String)
    (h : ∀ t, b.naturalExit = some t → 240 < t) :
    (Callgraph.run_function_analysis b collect).2 = none ∧
    (Callgraph.run_function_analysis b collect).1 ≤ 250 := by
  have hkill : Callgraph.graceful_kill_process b 240 10 ≤ 250 := by
    unfold Callgraph.graceful_kill_process
    cases hsend : b.termSendOk with
    | false => simp
    | true =>
      simp only [hsend, Bool.not_true, Bool.false_eq_true, if_false]
      cases hnat : b.naturalExit with
      | none =>
        cases hterm : b.termRespond with
        | none => simp
        | some d =>
          simp only []
          split <;> omega
      | some n =>
        cases hterm : b.termRespond with
        | none =>
          simp only []
          split <;> omega
        | some d =>
          simp only []
          split <;> omega
  cases hnat : b.naturalExit with
  | none =>
    unfold Callgraph.run_function_analysis
    simp only [hnat]
    exact ⟨trivial, hkill⟩
  | some t =>
    have ht : 240 < t := h t hnat
    unfold Callgraph.run_function_analysis
    simp only [hnat]
    rw [if_neg (by omega)]
    exact ⟨rfl, hkill⟩

/-- Witness for C4 at a concrete behaviour: a subprocess that never exits
and ignores SIGTERM is reported as not reached and is gone by 250 seconds
(here exactly at 250). -/
theorem run_function_analysis_deadline_witness :
    (Callgraph.run_function_analysis ⟨none, none, true, true⟩ (some "result")).2 = none ∧
    (Callgraph.run_function_analysis ⟨none, none, true, true⟩ (some "result")).1 ≤ 250 :=
  run_function_analysis_deadline ⟨none, none, true, true⟩ (some "result")
    (fun _ ht => nomatch ht)

open Callgraph in
/-- Auxiliary for C7: when the search tool faithfully reports occurrence of
the pattern, the target loop succeeds with a hit exactly when some
non-empty trimmed target's leaf name occurs. -/

theorem checkTargetsLoop_ok_true_iff
    (grep : String → String → GrepResult) (occ : String → String → Bool) (src : String)
    (hgrep : ∀ pat, grep pat src = if occ pat src then GrepResult.found else GrepResult.notFound) :
    ∀ (l : List String), (∀ s ∈ l, trimStr s ≠ "") →
      (checkTargetsLoop grep src l = Except.ok true ↔
        ∃ s ∈ l, occ (leafName (trimStr s)) src = true)
  | [] => by
    intro _
    simp [checkTargetsLoop]
  | p :: rest => by
    intro hne
    have hp : trimStr p ≠ "" := hne p (List.mem_cons_self _ _)
    have ihrest := checkTargetsLoop_ok_true_iff grep occ src hgrep rest
      (fun s hs => hne s (List.mem_cons_of_mem _ hs))
    simp only [checkTargetsLoop, check_src_contain_target_function_single]
    rw [if_neg hp, hgrep]
    by_cases hocc : occ (leafName (trimStr p)) src = true
    · rw [if_pos hocc]
      simp [hocc]
    · rw [if_neg hocc]
      simp only []
      rw [ihrest]
      constructor
      · intro ⟨s, hs, hoccs⟩
        exact ⟨s, List.mem_cons_of_mem _ hs, hoccs⟩
      · intro ⟨s, hs, hoccs⟩
        rcases List.mem_cons.mp hs with rfl | hs'
        · exact absurd hoccs hocc
        · exact ⟨s, hs', hoccs⟩

open Callgraph in
/-- Auxiliary for C7: a search error on any target, with no hit before it,
propagates out of the loop as an error. -/
theorem checkTargetsLoop_err
    (grep : String → String → GrepResult) (src : String) :
    ∀ (l : List String), (∀ s ∈ l, trimStr s ≠ "") →
      (∀ s ∈ l, grep (leafName (trimStr s)) src ≠ GrepResult.found) →
      (∃ s ∈ l, grep (leafName (trimStr s)) src = GrepResult.err) →
      checkTargetsLoop grep src l = Except.error ()
  | [] => by
    intro _ _ ⟨s, hs, _⟩
    exact absurd hs (List.not_mem_nil s)
  | p :: rest => by
    intro hne hnf ⟨s, hs, herr⟩
    have hp : trimStr p ≠ "" := hne p (List.mem_cons_self _ _)
    simp only [checkTargetsLoop, check_src_contain_target_function_single]
    rw [if_neg hp]
    cases hg : grep (leafName (trimStr p)) src with
    | found => exact absurd hg (hnf p (List.mem_cons_self _ _))
    | err => rfl
    | notFound =>
      simp only []
      apply checkTargetsLoop_err grep src rest
        (fun x hx => hne x (List.mem_cons_of_mem _ hx))
        (fun x hx => hnf x (List.mem_cons_of_mem _ hx))
      rcases List.mem_cons.mp hs with rfl | hs'
      · rw [hg] at herr
        exact absurd herr (by simp)
      · exact ⟨s, hs', herr⟩

open Callgraph in
/-- Auxiliary for C7: clean misses on every target yield the success-false
outcome. -/
theorem checkTargetsLoop_all_miss
    (grep : String → String → GrepResult) (src : String) :
    ∀ (l : List String),
      (∀ s ∈ l, grep (leafName (trimStr s)) src = GrepResult.notFound) →
      checkTargetsLoop grep src l = Except.ok false
  | [] => by
    intro _
    rfl
  | p :: rest => by
    intro hnf
    simp only [checkTargetsLoop, check_src_contain_target_function_single]
    by_cases hp : trimStr p = ""
    · rw [if_pos hp]
      exact checkTargetsLoop_all_miss grep src rest
        (fun x hx => hnf x (List.mem_cons_of_mem _ hx))
    · rw [if_neg hp, hnf p (List.mem_cons_self _ _)]
      exact checkTargetsLoop_all_miss grep src rest
        (fun x hx => hnf x (List.mem_cons_of_mem _ hx))

open Callgraph in
/-- C7.  Symbol Prefilter semantics: with the external search tool
abstracted as an oracle, (1) when the tool faithfully reports whether a
pattern occurs in the recursive text of the source tree, the prefilter
reports a hit if and only if some target's leaf name (the substring after
the last `::`) occurs, iterating the targets and returning on the first
hit; (2) a search failure on some target, when no earlier target hits, is
returned as an error rather than as a miss; and (3) clean no-match
outcomes on every target are returned as the distinct success-false
value. -/
theorem check_src_contain_target_function_spec
    (grep : String → String → GrepResult) (occ : String → String → Bool)
    (src target_function_paths : String)
    (hne : ∀ s ∈ splitTargets target_function_paths, s ≠ "") :
    ((∀ pat, grep pat src = if occ pat src then GrepResult.found else GrepResult.notFound) →
      (check_src_contain_target_function grep src target_function_paths = Except.ok true ↔
        ∃ s ∈ splitTargets target_function_paths, occ (leafName s) src = true)) ∧
    ((∀ s ∈ splitTargets target_function_paths, grep (leafName s) src ≠ GrepResult.found) →
      (∃ s ∈ splitTargets target_function_paths, grep (leafName s) src = GrepResult.err) →
      check_src_contain_target_function grep src target_function_paths = Except.error ()) ∧
    ((∀ s ∈ splitTargets target_function_paths, grep (leafName s) src = GrepResult.notFound) →
      check_src_contain_target_function grep src target_function_paths = Except.ok false) := by
  set raw := (splitOnChar ',' target_function_paths.toList).map (fun cs => String.mk cs) with hraw
  have hsplit : splitTargets target_function_paths = raw.map trimStr := by
    rw [hraw, List.map_map]
    rfl
  have hcheck : check_src_contain_target_function grep src target_function_paths =
      checkTargetsLoop grep src raw := rfl
  have hmemtrim : ∀ s ∈ raw, trimStr s ∈ splitTargets target_function_paths := by
    intro s hs
    rw [hsplit]
    exact List.mem_map_of_mem _ hs
  have hne' : ∀ s ∈ raw, trimStr s ≠ "" := fun s hs => hne (trimStr s) (hmemtrim s hs)
  refine ⟨?_, ?_, ?_⟩
  · intro hgrep
    rw [hcheck, checkTargetsLoop_ok_true_iff grep occ src hgrep raw hne']
    rw [hsplit]
    constructor
    · intro ⟨s, hs, h⟩
      exact ⟨trimStr s, List.mem_map_of_mem _ hs, h⟩
    · intro ⟨t, ht, h⟩
      obtain ⟨s, hs, rfl⟩ := List.mem_map.mp ht
      exact ⟨s, hs, h⟩
  · intro hnf hex
    rw [hcheck]
    apply checkTargetsLoop_err grep src raw hne'
    · intro s hs
      exact hnf (trimStr s) (hmemtrim s hs)
    · obtain ⟨t, ht, h⟩ := hex
      rw [hsplit] at ht
      obtain ⟨s, hs, rfl⟩ := List.mem_map.mp ht
      exact ⟨s, hs, h⟩
  · intro hnf
    rw [hcheck]
    apply checkTargetsLoop_all_miss grep src raw
    intro s hs
    exact hnf (trimStr s) (hmemtrim s hs)

open Callgraph in
/-- Witness for C7 at a concrete target list and a concrete faithful search
oracle that only finds the pattern `qux`. -/
theorem check_src_contain_target_function_spec_witness :
    (∀ s ∈ splitTargets "foo::bar, baz::qux", s ≠ "") ∧
    (check_src_contain_target_function
        (fun pat s => if (fun p (_ : String) => p == "qux") pat s then GrepResult.found
          else GrepResult.notFound)
        "srcdir" "foo::bar, baz::qux" = Except.ok true ↔
      ∃ s ∈ splitTargets "foo::bar, baz::qux",
        (fun p (_ : String) => p == "qux") (leafName s) "srcdir" = true) :=
  ⟨by decide,
   (check_src_contain_target_function_spec
      (fun pat s => if (fun p (_ : String) => p == "qux") pat s then GrepResult.found
        else GrepResult.notFound)
      (fun p (_ : String) => p == "qux") "srcdir" "foo::bar, baz::qux" (by decide)).1
     (fun _ => rfl)⟩

section C8Block

open DependencyAnalyzer

/-- Auxiliary for C8: inserting into the grouped map only creates the chosen key. -/
theorem insertGrouped_mem_key (key : String) (v : Version × ReverseDependency) :
    ∀ (gs : List (String × List (Version × ReverseDependency))) g,
      g ∈ insertGrouped key v gs → g.1 = key ∨ g.1 ∈ gs.map (·.1)
  | [], g, hg => by
    simp only [insertGrouped, List.mem_singleton] at hg
    subst hg
    exact Or.inl rfl
  | (k, vs) :: rest, g, hg => by
    simp only [insertGrouped] at hg
    by_cases hk : k = key
    · rw [if_pos hk] at hg
      rcases List.mem_cons.mp hg with rfl | hg'
      · exact Or.inl hk
      · exact Or.inr (List.mem_map_of_mem _ (List.mem_cons_of_mem _ hg'))
    · rw [if_neg hk] at hg
      rcases List.mem_cons.mp hg with rfl | hg'
      · exact Or.inr (by simp)
      · rcases insertGrouped_mem_key key v rest g hg' with h | h
        · exact Or.inl h
        · right
          simp only [List.map_cons, List.mem_cons]
          exact Or.inr h

/-- Auxiliary for C8: grouped insertion preserves distinctness of the keys. -/
theorem insertGrouped_pairwise (key : String) (v : Version × ReverseDependency) :
    ∀ (gs : List (String × List (Version × ReverseDependency))),
      gs.Pairwise (fun g h => g.1 ≠ h.1) →
      (insertGrouped key v gs).Pairwise (fun g h => g.1 ≠ h.1)
  | [], _ => by
    simp [insertGrouped]
  | (k, vs) :: rest, hp => by
    simp only [insertGrouped]
    by_cases hk : k = key
    · rw [if_pos hk]
      exact List.Pairwise.cons (fun h hh => List.rel_of_pairwise_cons hp hh) hp.tail
    · rw [if_neg hk]
      refine List.Pairwise.cons ?_ (insertGrouped_pairwise key v rest hp.tail)
      intro g hg
      rcases insertGrouped_mem_key key v rest g hg with h | h
      · rw [h]; exact hk
      · obtain ⟨g', hg', hgeq⟩ := List.mem_map.mp h
        have := List.rel_of_pairwise_cons hp hg'
        exact hgeq ▸ this

/-- Auxiliary for C8: grouped insertion preserves that every member of a
group carries the group key as its name. -/
theorem insertGrouped_names (key : String) (v : Version × ReverseDependency)
    (hv : v.2.name = key) :
    ∀ (gs : List (String × List (Version × ReverseDependency))),
      (∀ g ∈ gs, ∀ p ∈ g.2, p.2.name = g.1) →
      ∀ g ∈ insertGrouped key v gs, ∀ p ∈ g.2, p.2.name = g.1
  | [], _, g, hg, p, hp => by
    simp only [insertGrouped, List.mem_singleton] at hg
    subst hg
    simp only [List.mem_singleton] at hp
    subst hp
    exact hv
  | (k, vs) :: rest, hall, g, hg, p, hp => by
    simp only [insertGrouped] at hg
    by_cases hk : k = key
    · rw [if_pos hk] at hg
      rcases List.mem_cons.mp hg with rfl | hg'
      · rcases List.mem_append.mp hp with hpv | hpv
        · exact hall (k, vs) (List.mem_cons_self _ _) p hpv
        · simp only [List.mem_singleton] at hpv
          subst hpv
          rw [hv, hk]
      · exact hall g (List.mem_cons_of_mem _ hg') p hp
    · rw [if_neg hk] at hg
      rcases List.mem_cons.mp hg with rfl | hg'
      · exact hall _ (List.mem_cons_self _ _) p hp
      · exact insertGrouped_names key v hv rest
          (fun g' hg' => hall g' (List.mem_cons_of_mem _ hg')) g hg' p hp

/-- Auxiliary for C8: the grouping fold keeps keys distinct and members
named after their key. -/
theorem groupFold_wf :
    ∀ (deps : List ReverseDependency) (acc : List (String × List (Version × ReverseDependency))),
      acc.Pairwise (fun g h => g.1 ≠ h.1) →
      (∀ g ∈ acc, ∀ p ∈ g.2, p.2.name = g.1) →
      ((deps.foldl
          (fun acc dep =>
            match Version.parse dep.version with
            | some version => insertGrouped dep.name (version, dep) acc
            | none => acc)
          acc).Pairwise (fun g h => g.1 ≠ h.1) ∧
       ∀ g ∈ deps.foldl
          (fun acc dep =>
            match Version.parse dep.version with
            | some version => insertGrouped dep.name (version, dep) acc
            | none => acc)
          acc, ∀ p ∈ g.2, p.2.name = g.1)
  | [], acc, hp, hn => ⟨hp, hn⟩
  | dep :: rest, acc, hp, hn => by
    simp only [List.foldl_cons]
    cases hparse : Version.parse dep.version with
    | none => exact groupFold_wf rest acc hp hn
    | some version =>
      exact groupFold_wf rest (insertGrouped dep.name (version, dep) acc)
        (insertGrouped_pairwise _ _ acc hp)
        (insertGrouped_names dep.name (version, dep) rfl acc hn)

/-- Auxiliary for C8: the name-grouped dependents map has distinct keys and
every member of a group is named after the key. -/
theorem groupDependentsByName_wf (deps : List ReverseDependency) :
    (groupDependentsByName deps).Pairwise (fun g h => g.1 ≠ h.1) ∧
    ∀ g ∈ groupDependentsByName deps, ∀ p ∈ g.2, p.2.name = g.1 :=
  groupFold_wf deps [] (List.Pairwise.nil) (by simp)

/-- Auxiliary for C8 (and C3): the indices returned by the two-endpoint
selection address the input list. -/
theorem select_oldest_newest_idx_lt (vs : List Version) :
    (∀ i v, (select_oldest_and_newest_versions vs).1 = some (i, v) → i < vs.length) ∧
    (∀ i v, (select_oldest_and_newest_versions vs).2 = some (i, v) → i < vs.length) := by
  unfold select_oldest_and_newest_versions
  by_cases h : vs = []
  · simp [h]
  · rw [if_neg h]
    have hperm := List.perm_insertionSort vle vs.enum
    constructor
    · intro i v hh
      simp only at hh
      have hmem : (i, v) ∈ List.insertionSort vle vs.enum :=
        List.mem_of_mem_head? (by rw [hh]; exact Option.mem_def.mpr rfl)
      have hmem' : (i, v) ∈ vs.enum := hperm.mem_iff.mp hmem
      have := List.mem_enumFrom hmem'
      omega
    · intro i v hh
      simp only at hh
      split at hh
      · have hmem : (i, v) ∈ List.insertionSort vle vs.enum :=
          List.mem_of_mem_getLast? hh
        have hmem' : (i, v) ∈ vs.enum := hperm.mem_iff.mp hmem
        have := List.mem_enumFrom hmem'
        omega
      · exact absurd hh (by simp)

/-- Auxiliary for C8: a group contributes at most two selected dependents. -/
theorem selectGroupTwoEnds_length (g : List (Version × ReverseDependency)) :
    (selectGroupTwoEnds g).length ≤ 2 := by
  unfold selectGroupTwoEnds
  exact le_trans (List.length_filterMap_le _ _) (by simp)

/-- Auxiliary for C8: every dependent selected from a group carries the
group key as its name. -/
theorem selectGroupTwoEnds_names (g : List (Version × ReverseDependency)) (key : String)
    (hg : ∀ p ∈ g, p.2.name = key) :
    ∀ rd ∈ selectGroupTwoEnds g, rd.name = key := by
  intro rd hrd
  unfold selectGroupTwoEnds at hrd
  have hidx := select_oldest_newest_idx_lt (g.map (·.1))
  rw [List.length_map] at hidx
  simp only [List.filterMap_cons, List.filterMap_nil] at hrd
  have hmem : ∀ i v,
      (select_oldest_and_newest_versions (g.map (·.1))).1 = some (i, v) ∨
      (select_oldest_and_newest_versions (g.map (·.1))).2 = some (i, v) →
      ((g[i]?).getD (default, default)).2.name = key := by
    intro i v hiv
    have hlt : i < g.length := by
      rcases hiv with h | h
      · exact hidx.1 i v h
      · exact hidx.2 i v h
    rw [List.getElem?_eq_getElem hlt]
    simp only [Option.getD_some]
    exact hg _ (List.getElem_mem hlt)
  rcases h1 : (select_oldest_and_newest_versions (g.map (·.1))).1 with _ | ⟨i1, v1⟩ <;>
    rcases h2 : (select_oldest_and_newest_versions (g.map (·.1))).2 with _ | ⟨i2, v2⟩ <;>
    rw [h1, h2] at hrd <;> simp at hrd
  · rcases hrd with rfl
    exact hmem i2 v2 (Or.inr h2)
  · rcases hrd with rfl
    exact hmem i1 v1 (Or.inl h1)
  · rcases hrd with rfl | rfl
    · exact hmem i1 v1 (Or.inl h1)
    · exact hmem i2 v2 (Or.inr h2)

/-- Auxiliary for C8: over groups with distinct keys, at most two selected
dependents in total carry any one name. -/
theorem countP_flatMap_two (dep_name : String) :
    ∀ (gs : List (String × List (Version × ReverseDependency))),
      gs.Pairwise (fun g h => g.1 ≠ h.1) →
      (∀ g ∈ gs, ∀ p ∈ g.2, p.2.name = g.1) →
      ((gs.flatMap fun g => selectGroupTwoEnds g.2).countP
        fun rd => decide (rd.name = dep_name)) ≤ 2
  | [], _, _ => by simp
  | g :: rest, hp, hn => by
    rw [List.flatMap_cons, List.countP_append]
    by_cases hkey : g.1 = dep_name
    · have hrest : ((rest.flatMap fun g => selectGroupTwoEnds g.2).countP
          fun rd => decide (rd.name = dep_name)) = 0 := by
        rw [List.countP_eq_zero]
        intro rd hrd
        obtain ⟨g', hg', hrd'⟩ := List.mem_flatMap.mp hrd
        have hname : rd.name = g'.1 :=
          selectGroupTwoEnds_names g'.2 g'.1 (hn g' (List.mem_cons_of_mem _ hg')) rd hrd'
        have hne : g.1 ≠ g'.1 := List.rel_of_pairwise_cons hp hg'
        simp only [decide_eq_true_eq]
        rw [hname, ← hkey]
        exact fun hcon => hne hcon.symm
      rw [hrest]
      have := le_trans (List.countP_le_length (fun rd => decide (rd.name = dep_name))
        (l := selectGroupTwoEnds g.2)) (selectGroupTwoEnds_length g.2)
      omega
    · have hhead : ((selectGroupTwoEnds g.2).countP
          fun rd => decide (rd.name = dep_name)) = 0 := by
        rw [List.countP_eq_zero]
        intro rd hrd
        have hname : rd.name = g.1 :=
          selectGroupTwoEnds_names g.2 g.1 (hn g (List.mem_cons_self _ _)) rd hrd
        simp only [decide_eq_true_eq]
        rw [hname]
        exact hkey
      rw [hhead]
      have := countP_flatMap_two dep_name rest hp.tail
        (fun g' hg' => hn g' (List.mem_cons_of_mem _ hg'))
      omega

/-- Auxiliary for C8: a `filterMap` cannot increase the count of a property
that the mapping reflects. -/
theorem countP_filterMap_le_aux {α β : Type} (f : α → Option β) (p : β → Bool) (q : α → Bool)
    (hf : ∀ a b, f a = some b → p b = true → q a = true) :
    ∀ l : List α, (l.filterMap f).countP p ≤ l.countP q
  | [] => by simp
  | a :: rest => by
    have hrec := countP_filterMap_le_aux f p q hf rest
    rw [List.filterMap_cons]
    cases hfa : f a with
    | none =>
      simp only [List.countP_cons]
      split <;> omega
    | some b =>
      simp only [List.countP_cons]
      by_cases hpb : p b = true
      · have hqa : q a = true := hf a b hfa hpb
        rw [if_pos hpb, if_pos hqa]
        omega
      · rw [if_neg hpb]
        split <;> omega

/-- C8.  Two-endpoint expansion bound: for every processed node and every
dependent package name, the expansion of the node
(`process_single_bfs_node`) emits at most two candidate children carrying
that name - the oldest and newest surviving versions of that dependent -
so at most two versions of any one dependent are ever enqueued from one
expansion. -/
theorem process_single_bfs_node_two_per_name (env : Env) (krate : Krate) (dep_name : String) :
    ((process_single_bfs_node env krate).countP fun n => decide (n.name = dep_name)) ≤ 2 := by
  unfold process_single_bfs_node
  have hwf := groupDependentsByName_wf
    (filter_dependents_by_version_req (env.queryDependents krate.name) krate.version)
  refine le_trans (countP_filterMap_le_aux _ _ (fun rd => decide (rd.name = dep_name)) ?_ _) ?_
  · intro a b hab hpb
    simp only at hab
    split at hab
    · cases Option.some.inj hab
      exact hpb
    · exact absurd hab (by simp)
  · exact countP_flatMap_two dep_name _ hwf.1 hwf.2

end C8Block

section C2Block

open Model DependencyAnalyzer

/-- Auxiliary for C2: the visited set only grows across the filtering of
the emitted children of a level. -/
theorem filterNewNodes_visited_mono (k : VisitedCrateVersion) :
    ∀ (nodes : List Krate) (visited : List VisitedCrateVersion), k ∈ visited →
      k ∈ (filterNewNodes visited nodes).1
  | [], _, hk => hk
  | node :: rest, visited, hk => by
    simp only [filterNewNodes]
    by_cases hcv : keyOf node ∈ visited
    · rw [if_pos hcv]
      exact filterNewNodes_visited_mono k rest visited hk
    · rw [if_neg hcv]
      exact filterNewNodes_visited_mono k rest (visited ++ [keyOf node])
        (List.mem_append.mpr (Or.inl hk))

/-- Auxiliary for C2: a key already in the visited set is never kept among
the new nodes of a level. -/
theorem filterNewNodes_count_zero (k : VisitedCrateVersion) :
    ∀ (nodes : List Krate) (visited : List VisitedCrateVersion), k ∈ visited →
      countKey k (filterNewNodes visited nodes).2 = 0
  | [], _, _ => rfl
  | node :: rest, visited, hk => by
    simp only [filterNewNodes]
    by_cases hcv : keyOf node ∈ visited
    · rw [if_pos hcv]
      exact filterNewNodes_count_zero k rest visited hk
    · rw [if_neg hcv]
      simp only [countKey, List.countP_cons]
      have hrec := filterNewNodes_count_zero k rest (visited ++ [keyOf node])
        (List.mem_append.mpr (Or.inl hk))
      simp only [countKey] at hrec
      rw [hrec]
      have hne : ¬(keyOf node = k) := fun hcon => hcv (hcon ▸ hk)
      simp [hne]

/-- Auxiliary for C2: each key is kept at most once among the new nodes of
a level. -/
theorem filterNewNodes_count_le_one (k : VisitedCrateVersion) :
    ∀ (nodes : List Krate) (visited : List VisitedCrateVersion),
      countKey k (filterNewNodes visited nodes).2 ≤ 1
  | [], _ => by simp [filterNewNodes, countKey]
  | node :: rest, visited => by
    simp only [filterNewNodes]
    by_cases hcv : keyOf node ∈ visited
    · rw [if_pos hcv]
      exact filterNewNodes_count_le_one k rest visited
    · rw [if_neg hcv]
      simp only [countKey, List.countP_cons]
      by_cases hkey : keyOf node = k
      · have hzero := filterNewNodes_count_zero k rest (visited ++ [keyOf node])
          (List.mem_append.mpr (Or.inr (by rw [hkey]; exact List.mem_singleton.mpr rfl)))
        simp only [countKey] at hzero
        rw [hzero]
        simp [hkey]
      · have hrec := filterNewNodes_count_le_one k rest (visited ++ [keyOf node])
        simp only [countKey] at hrec
        simp [hkey]
        omega
    
/-- Auxiliary for C2: after filtering a level, a key is in the visited set
exactly when it was already there or one new node carries it. -/
theorem filterNewNodes_mem_iff (k : VisitedCrateVersion) :
    ∀ (nodes : List Krate) (visited : List VisitedCrateVersion),
      (k ∈ (filterNewNodes visited nodes).1 ↔
        k ∈ visited ∨ 0 < countKey k (filterNewNodes visited nodes).2)
  | [], visited => by
    simp [filterNewNodes, countKey]
  | node :: rest, visited => by
    simp only [filterNewNodes]
    by_cases hcv : keyOf node ∈ visited
    · rw [if_pos hcv]
      exact filterNewNodes_mem_iff k rest visited
    · rw [if_neg hcv]
      have ih := filterNewNodes_mem_iff k rest (visited ++ [keyOf node])
      simp only [countKey, List.countP_cons] at ih ⊢
      by_cases hkey : keyOf node = k
      · constructor
        · intro _
          right
          simp [hkey]
        · intro _
          rw [ih]
          left
          exact List.mem_append.mpr (Or.inr (by rw [hkey]; exact List.mem_singleton.mpr rfl))
      · have hif : (if decide (keyOf node = k) = true then 1 else 0) = 0 := by simp [hkey]
        rw [ih, hif, Nat.add_zero]
        constructor
        · intro h
          rcases h with h | h
          · rcases List.mem_append.mp h with h' | h'
            · exact Or.inl h'
            · simp only [List.mem_singleton] at h'
              exact absurd h'.symm hkey
          · exact Or.inr h
        · intro h
          rcases h with h | h
          · exact Or.inl (List.mem_append.mpr (Or.inl h))
          · exact Or.inr h

/-- C2 as amended.  Visited-set deduplication with the seed exception: for
every environment, fuel, starting queue and visited set, the BFS processed
trace contains each `(name, version)` key at most once more than its
multiplicity in the starting queue (and not at all beyond the queue when
the key is already in the visited set).  In particular, once a key is
inserted into the visited set it is never enqueued or processed again; but
the seed queue of `analyze` bypasses the visited set, so a seed key that is
rediscovered as a child is processed a second time. -/
theorem bfs_from_queue_count_bound (env : Env) :
    ∀ (fuel : Nat) (queue : List Krate) (visited : List VisitedCrateVersion)
      (k : VisitedCrateVersion),
      countKey k (bfs_from_queue env fuel queue visited) ≤
        countKey k queue + (if k ∈ visited then 0 else 1)
  | 0, queue, visited, k => by
    simp [bfs_from_queue, countKey]
  | fuel + 1, queue, visited, k => by
    simp only [bfs_from_queue]
    by_cases hq : queue = []
    · rw [if_pos hq]
      simp [countKey]
    · rw [if_neg hq]
      simp only [countKey, List.countP_append]
      set r := process_bfs_level env queue visited with hr
      have hrr : r = filterNewNodes visited ((queue.map (process_single_bfs_node env)).flatten) :=
        rfl
      set children := (queue.map (process_single_bfs_node env)).flatten with hch
      have ih := bfs_from_queue_count_bound env fuel r.2 r.1 k
      simp only [countKey] at ih
      by_cases hv : k ∈ visited
      · have hz := filterNewNodes_count_zero k children visited hv
        rw [← hrr] at hz
        simp only [countKey] at hz
        have hm := filterNewNodes_visited_mono k children visited hv
        rw [← hrr] at hm
        rw [if_pos hv]
        rw [if_pos hm] at ih
        omega
      · rw [if_neg hv]
        by_cases h2 : 0 < countKey k r.2
        · have hone := filterNewNodes_count_le_one k children visited
          rw [← hrr] at hone
          have hmem : k ∈ r.1 := by
            rw [hrr]
            exact (filterNewNodes_mem_iff k children visited).mpr (Or.inr (hrr ▸ h2))
          simp only [countKey] at hone h2
          rw [if_pos hmem] at ih
          omega
        · have hnotmem : k ∉ r.1 := by
            rw [hrr]
            intro hcon
            rcases (filterNewNodes_mem_iff k children visited).mp hcon with h | h
            · exact hv h
            · exact h2 (hrr ▸ h)
          simp only [countKey] at h2
          rw [if_neg hnotmem] at ih
          omega

/-- C2, counterexample to the claim as stated.  In the registry `selfDepEnv`,
where crate `a` at `1.0.0` declares a dependency on `a` with requirement
`=1.0.0` and analysis always reaches, the run `analyze` on crate `a` with
range `=1.0.0` processes the pair `(a, 1.0.0)` twice: once as the seed
(which is never inserted into the visited set) and once as a child
discovered from its own expansion. -/
theorem bfs_processes_seed_twice :
    (analyze selfDepEnv 3 "a" "=1.0.0").map (countKey ⟨"a", "1.0.0"⟩) = some 2 := by
  decide

end C2Block

end Theorems
